import Mathlib

/-!
Verification of the cryptographic core of balloteer/solana-private-votes.

The Rust sources embedded here are:
  crates/crypto/src/elgamal.rs     (ElGamal keys, encryption, bounded decryption,
                                    homomorphic addition, scalar multiplication)
  crates/crypto/src/commitment.rs  (hash commitments to votes)
  crates/crypto/src/nullifier.rs   (nullifier computation)
  privacy-layer/crates/crypto/src/errors.rs (error taxonomy)
  privacy-layer/programs/privacy-layer/src/state/nullifier_set.rs (nullifier set)

Two external dependencies are not part of the repository and are modelled from
the specification's contract for them:
  - curve25519-dalek's Ristretto group (spec section 4.1 Group Arithmetic): a
    cyclic group of prime order with canonical 32-byte point compression and
    validated decompression.  It is modelled as the additive group `ZMod L`
    (`L` the actual Ristretto group order), generator `G = 1`, compression
    returning the canonical representative and decompression accepting
    exactly the canonical encodings.  Scalars (`Scalar`) also live in
    `ZMod L`; `from_bytes_mod_order` is reduction of the byte value mod `L`.
    Byte strings at the boundary are modelled by their numeric value.
  - the sha3 crate's Keccak-256: modelled as an ideal (injective) hash,
    represented symbolically by its input byte stream; the spec's
    collision-resistance assumption justifies the idealization.
-/

namespace PrivateVotes

/-- Modelled from the spec: order of the Ristretto group used by
curve25519-dalek, the prime 2^252 + 27742317777372353535851937790883648493. -/
def L : ℕ := 7237005577332262213973186563042994240857116359379907606001950938285454250989

theorem L_pos : 0 < L := by unfold L; omega

instance : NeZero L := ⟨by have := L_pos; omega⟩

/-- Modelled from the spec: the Ristretto group (cyclic of prime order `L`),
as the additive-multiplicative ring `ZMod L`; points and scalars both live
here, scalar-times-point being ring multiplication. -/
abbrev Point : Type := ZMod L

/-- Modelled from the spec: the Ristretto basepoint (`RISTRETTO_BASEPOINT_TABLE`),
a generator of the group; in the `ZMod L` model the unit `1`. -/
def G : Point := 1

/-- Modelled from the spec: canonical point compression, returning the 32-byte
encoding of a point as its numeric value (the canonical representative). -/
def pointCompress (p : Point) : ℕ := p.val

/-- Modelled from the spec: validated point decompression.  Decompression
fails closed on byte strings that are not canonical encodings. -/
def pointDecompress (b : ℕ) : Option Point :=
  if b < L then some ((b : ℕ) : Point) else none

/-- Modelled from the spec: `Scalar::from_bytes_mod_order`, reducing an
arbitrary 32-byte value modulo the group order; always succeeds. -/
def from_bytes_mod_order (b : ℕ) : Point := ((b : ℕ) : Point)

/-- Error taxonomy of `privacy-layer/crates/crypto/src/errors.rs`. -/
inductive CryptoError where
  | InvalidPublicKey
  | InvalidSecretKey
  | InvalidCiphertext
  | DecryptionFailed
  | InvalidCurvePoint
  | SerializationError
  | InvalidNullifierInput
  | InvalidCommitmentInput
  | ArithmeticError
deriving DecidableEq, Repr

/-- Result type of `crates/crypto/src/lib.rs`. -/
abbrev Result (α : Type) : Type := Except CryptoError α

/-- `ElGamalPublicKey` of elgamal.rs: a compressed Ristretto point, the 32
bytes modelled by their numeric value. -/
structure ElGamalPublicKey where
  point : ℕ
deriving DecidableEq, Repr

/-- `ElGamalSecretKey` of elgamal.rs: 32 raw scalar bytes, modelled by their
numeric value. -/
structure ElGamalSecretKey where
  scalar : ℕ
deriving DecidableEq, Repr

/-- `ElGamalCiphertext` of elgamal.rs: two compressed points. -/
structure ElGamalCiphertext where
  c1 : ℕ
  c2 : ℕ
deriving DecidableEq, Repr

/-- `ElGamalPublicKey::from_bytes`: validates via decompression, rejecting
with `InvalidPublicKey`, and stores the bytes. -/
def ElGamalPublicKey.from_bytes (bytes : ℕ) : Result ElGamalPublicKey :=
  match pointDecompress bytes with
  | none => .error .InvalidPublicKey
  | some _ => .ok { point := bytes }

/-- `ElGamalPublicKey::as_point`: decompress the stored bytes. -/
def ElGamalPublicKey.as_point (pk : ElGamalPublicKey) : Result Point :=
  match pointDecompress pk.point with
  | none => .error .InvalidPublicKey
  | some p => .ok p

/-- `ElGamalPublicKey::encrypt_with_randomness`: `c1 = r·G`,
`c2 = m·G + r·Y` with `r` the reduced randomness and `m` the u64 message. -/
def ElGamalPublicKey.encrypt_with_randomness (pk : ElGamalPublicKey)
    (message : ℕ) (randomness : ℕ) : Result ElGamalCiphertext :=
  match pk.as_point with
  | .error e => .error e
  | .ok public_point =>
    let r : Point := from_bytes_mod_order randomness
    let m_scalar : Point := ((message : ℕ) : Point)
    let c1_point : Point := r * G
    let m_point : Point := m_scalar * G
    let c2_point : Point := m_point + r * public_point
    .ok { c1 := pointCompress c1_point, c2 := pointCompress c2_point }

/-- `ElGamalSecretKey::from_bytes`: total, no validation. -/
def ElGamalSecretKey.from_bytes (bytes : ℕ) : ElGamalSecretKey :=
  { scalar := bytes }

/-- `ElGamalSecretKey::as_scalar`: reduce the stored bytes mod the order. -/
def ElGamalSecretKey.as_scalar (sk : ElGamalSecretKey) : Point :=
  from_bytes_mod_order sk.scalar

/-- The brute-force discrete-log loop of `ElGamalSecretKey::decrypt`:
`for i in 0..10000 { if Scalar::from(i) * G == m_point { return Ok(i) } }`,
written with explicit fuel counting the remaining iterations. -/
def dlSearch (target : Point) : ℕ → ℕ → Option ℕ
  | 0, _ => none
  | fuel + 1, i =>
    if ((i : ℕ) : Point) * G = target then some i else dlSearch target fuel (i + 1)

/-- `ElGamalSecretKey::decrypt`: decompress both components (failing with
`InvalidCiphertext`), compute `M = c2 - x·c1`, then brute-force search
`i ∈ [0, 10000)` for `i·G = M`, failing with `DecryptionFailed`. -/
def ElGamalSecretKey.decrypt (sk : ElGamalSecretKey) (ciphertext : ElGamalCiphertext) :
    Result ℕ :=
  match pointDecompress ciphertext.c1 with
  | none => .error .InvalidCiphertext
  | some c1 =>
    match pointDecompress ciphertext.c2 with
    | none => .error .InvalidCiphertext
    | some c2 =>
      let x := sk.as_scalar
      let m_point := c2 - x * c1
      match dlSearch m_point 10000 0 with
      | some i => .ok i
      | none => .error .DecryptionFailed

/-- `ElGamalKeypair` of elgamal.rs. -/
structure ElGamalKeypair where
  public : ElGamalPublicKey
  secret : ElGamalSecretKey
deriving DecidableEq, Repr

/-- `ElGamalKeypair::from_secret`: derive `public = secret·G`. -/
def ElGamalKeypair.from_secret (secret : ElGamalSecretKey) : ElGamalKeypair :=
  let secret_scalar := secret.as_scalar
  let public_point := secret_scalar * G
  { public := { point := pointCompress public_point }, secret := secret }

/-- `ElGamalCiphertext::add`: decompress all four components (failing with
`InvalidCiphertext`), add component-wise, recompress. -/
def ElGamalCiphertext.add (self other : ElGamalCiphertext) : Result ElGamalCiphertext :=
  match pointDecompress self.c1 with
  | none => .error .InvalidCiphertext
  | some c1_self =>
    match pointDecompress self.c2 with
    | none => .error .InvalidCiphertext
    | some c2_self =>
      match pointDecompress other.c1 with
      | none => .error .InvalidCiphertext
      | some c1_other =>
        match pointDecompress other.c2 with
        | none => .error .InvalidCiphertext
        | some c2_other =>
          .ok { c1 := pointCompress (c1_self + c1_other)
                c2 := pointCompress (c2_self + c2_other) }

/-- `ElGamalCiphertext::mul_scalar`: decompress both components, multiply
each by `Scalar::from(scalar)`, recompress. -/
def ElGamalCiphertext.mul_scalar (self : ElGamalCiphertext) (scalar : ℕ) :
    Result ElGamalCiphertext :=
  match pointDecompress self.c1 with
  | none => .error .InvalidCiphertext
  | some c1 =>
    match pointDecompress self.c2 with
    | none => .error .InvalidCiphertext
    | some c2 =>
      let s : Point := ((scalar : ℕ) : Point)
      .ok { c1 := pointCompress (s * c1), c2 := pointCompress (s * c2) }

/-- Modelled from the spec: Keccak-256 of the sha3 crate, a fixed
cryptographic hash of a byte stream into a 32-byte digest.  It is idealized
as an injective function, the digest represented symbolically by the hashed
byte stream itself; the spec assumes collision resistance ("changing any one
input changes the digest ... collision resistance of the underlying hash"),
which this symbolic model renders as injectivity. -/
def keccak256 (msg : List ℕ) : List ℕ := msg

/-- `u64::to_le_bytes`: the eight bytes of a 64-bit integer, little-endian. -/
def to_le_bytes (n : ℕ) : List ℕ :=
  [n % 256, n / 256 % 256, n / 65536 % 256, n / 16777216 % 256,
   n / 4294967296 % 256, n / 1099511627776 % 256,
   n / 281474976710656 % 256, n / 72057594037927936 % 256]

/-- `compute_nullifier` of nullifier.rs:
`Keccak256(voter_secret ‖ election_id ‖ nonce.to_le_bytes())`. -/
def compute_nullifier (voter_secret election_id : List ℕ) (nonce : ℕ) : List ℕ :=
  keccak256 (voter_secret ++ election_id ++ to_le_bytes nonce)

/-- `compute_nullifier_with_pubkey` of nullifier.rs: uses the election
public-key bytes as election id. -/
def compute_nullifier_with_pubkey (voter_secret election_pubkey : List ℕ)
    (nonce : ℕ) : List ℕ :=
  compute_nullifier voter_secret election_pubkey nonce

/-- `verify_nullifier` of nullifier.rs: recompute and compare. -/
def verify_nullifier (nullifier voter_secret election_id : List ℕ) (nonce : ℕ) :
    Bool :=
  compute_nullifier voter_secret election_id nonce == nullifier

/-- `commit_vote` of commitment.rs: `Keccak256([vote] ‖ blinding_factor)`. -/
def commit_vote (vote : ℕ) (blinding_factor : List ℕ) : List ℕ :=
  keccak256 ([vote] ++ blinding_factor)

/-- `verify_commitment` of commitment.rs: recompute and compare. -/
def verify_commitment (commitment : List ℕ) (vote : ℕ)
    (blinding_factor : List ℕ) : Bool :=
  commit_vote vote blinding_factor == commitment

/-- Error enum of nullifier_set.rs. -/
inductive NsErrorCode where
  | NullifierAlreadyUsed
deriving DecidableEq, Repr

/-- `NullifierSet` account of
`privacy-layer/programs/privacy-layer/src/state/nullifier_set.rs`: bump seed,
owning election (a 32-byte `Pubkey`, modelled by its value), and the list of
used nullifiers (32-byte digests, modelled as byte lists). -/
structure NullifierSet where
  bump : ℕ
  election : ℕ
  nullifiers : List (List ℕ)
deriving DecidableEq, Repr

/-- `NullifierSet::contains`: `self.nullifiers.iter().any(|n| n == nullifier)`. -/
def NullifierSet.contains (s : NullifierSet) (nullifier : List ℕ) : Bool :=
  s.nullifiers.any (fun n => n == nullifier)

/-- `NullifierSet::insert`: error with `NullifierAlreadyUsed` if present
(the account unchanged), otherwise push the nullifier.  The Rust method
mutates `self`; the model returns the updated account. -/
def NullifierSet.insert (s : NullifierSet) (nullifier : List ℕ) :
    Except NsErrorCode NullifierSet :=
  if s.contains nullifier then .error .NullifierAlreadyUsed
  else .ok { s with nullifiers := s.nullifiers ++ [nullifier] }

/-- `NullifierSet::len`. -/
def NullifierSet.len (s : NullifierSet) : ℕ := s.nullifiers.length

/-- `NullifierSet::is_empty`. -/
def NullifierSet.is_empty (s : NullifierSet) : Bool := s.nullifiers.isEmpty

/-- States of the nullifier-set account reachable from an empty set by
successful `insert` calls. -/
inductive NullifierSet.Reachable : NullifierSet → Prop where
  | empty (bump election : ℕ) :
      NullifierSet.Reachable { bump := bump, election := election, nullifiers := [] }
  | step (s s' : NullifierSet) (n : List ℕ) :
      NullifierSet.Reachable s → s.insert n = .ok s' → NullifierSet.Reachable s'

/-! Helper lemmas about the group model and the decryption search. -/

theorem bound_lt_L : 10000 < L := by
  unfold L
  omega

theorem pointDecompress_compress (p : Point) : pointDecompress (pointCompress p) = some p := by
  unfold pointDecompress pointCompress
  rw [if_pos (ZMod.val_lt p)]
  exact congrArg some (ZMod.natCast_rightInverse p)

theorem natCast_point_inj {i j : ℕ} (hi : i < L) (hj : j < L)
    (h : ((i : ℕ) : Point) = ((j : ℕ) : Point)) : i = j := by
  have hv := congrArg ZMod.val h
  rwa [ZMod.val_cast_of_lt hi, ZMod.val_cast_of_lt hj] at hv

theorem dlSearch_finds (m : ℕ) (hmL : m < L) :
    ∀ fuel i, i ≤ m → m < i + fuel → dlSearch ((m : ℕ) : Point) fuel i = some m := by
  intro fuel
  induction fuel with
  | zero =>
    intro i hle hlt
    omega
  | succ n ih =>
    intro i hle hlt
    by_cases hcase : i = m
    · subst hcase
      simp [dlSearch, G]
    · have hne : ((i : ℕ) : Point) * G ≠ ((m : ℕ) : Point) := by
        rw [G, mul_one]
        intro hc
        exact hcase (natCast_point_inj (by omega) hmL hc)
      rw [dlSearch, if_neg hne]
      exact ih (i + 1) (by omega) (by omega)

theorem dlSearch_misses (m : ℕ) (hmL : m < L) :
    ∀ fuel i, i + fuel ≤ m → dlSearch ((m : ℕ) : Point) fuel i = none := by
  intro fuel
  induction fuel with
  | zero =>
    intro i _
    rfl
  | succ n ih =>
    intro i hle
    have hne : ((i : ℕ) : Point) * G ≠ ((m : ℕ) : Point) := by
      rw [G, mul_one]
      intro hc
      have : i = m := natCast_point_inj (by omega) hmL hc
      omega
    rw [dlSearch, if_neg hne]
    exact ih (i + 1) (by omega)

theorem dlSearch_sound (t : Point) :
    ∀ fuel i k, dlSearch t fuel i = some k →
      i ≤ k ∧ k < i + fuel ∧ ((k : ℕ) : Point) * G = t := by
  intro fuel
  induction fuel with
  | zero =>
    intro i k h
    exact absurd h (by simp [dlSearch])
  | succ n ih =>
    intro i k h
    rw [dlSearch] at h
    by_cases hcase : ((i : ℕ) : Point) * G = t
    · rw [if_pos hcase] at h
      obtain rfl : i = k := Option.some.inj h
      exact ⟨le_refl i, by omega, hcase⟩
    · rw [if_neg hcase] at h
      obtain ⟨h1, h2, h3⟩ := ih (i + 1) k h
      exact ⟨by omega, by omega, h3⟩

theorem encrypt_spec (pk : ElGamalPublicKey) (y : Point)
    (hy : pointDecompress pk.point = some y) (m r : ℕ) :
    pk.encrypt_with_randomness m r =
      .ok { c1 := pointCompress (from_bytes_mod_order r * G),
            c2 := pointCompress (((m : ℕ) : Point) * G + from_bytes_mod_order r * y) } := by
  unfold ElGamalPublicKey.encrypt_with_randomness ElGamalPublicKey.as_point
  rw [hy]

theorem decrypt_compressed (sk : ElGamalSecretKey) (p1 p2 : Point) :
    sk.decrypt { c1 := pointCompress p1, c2 := pointCompress p2 } =
      match dlSearch (p2 - sk.as_scalar * p1) 10000 0 with
      | some i => .ok i
      | none => .error .DecryptionFailed := by
  unfold ElGamalSecretKey.decrypt
  rw [pointDecompress_compress, pointDecompress_compress]

theorem decrypt_in_range (sk : ElGamalSecretKey) (ct : ElGamalCiphertext)
    (p1 p2 : Point) (m : ℕ)
    (h1 : pointDecompress ct.c1 = some p1) (h2 : pointDecompress ct.c2 = some p2)
    (hm : p2 - sk.as_scalar * p1 = ((m : ℕ) : Point) * G) (hlt : m < 10000) :
    sk.decrypt ct = .ok m := by
  unfold ElGamalSecretKey.decrypt
  rw [h1, h2]
  dsimp only
  have hG : ((m : ℕ) : Point) * G = ((m : ℕ) : Point) := by rw [G, mul_one]
  rw [hm, hG, dlSearch_finds m (lt_trans hlt bound_lt_L) 10000 0 (Nat.zero_le m) (by omega)]

theorem decrypt_ge_bound (sk : ElGamalSecretKey) (ct : ElGamalCiphertext)
    (p1 p2 : Point) (m : ℕ)
    (h1 : pointDecompress ct.c1 = some p1) (h2 : pointDecompress ct.c2 = some p2)
    (hm : p2 - sk.as_scalar * p1 = ((m : ℕ) : Point) * G)
    (hlo : 10000 ≤ m) (hhi : m < L) :
    sk.decrypt ct = .error .DecryptionFailed := by
  unfold ElGamalSecretKey.decrypt
  rw [h1, h2]
  dsimp only
  have hG : ((m : ℕ) : Point) * G = ((m : ℕ) : Point) := by rw [G, mul_one]
  rw [hm, hG, dlSearch_misses m hhi 10000 0 (by omega)]

theorem add_compressed (a1 a2 b1 b2 : Point) :
    ElGamalCiphertext.add { c1 := pointCompress a1, c2 := pointCompress a2 }
      { c1 := pointCompress b1, c2 := pointCompress b2 } =
      .ok { c1 := pointCompress (a1 + b1), c2 := pointCompress (a2 + b2) } := by
  unfold ElGamalCiphertext.add
  rw [pointDecompress_compress, pointDecompress_compress, pointDecompress_compress,
    pointDecompress_compress]

theorem mul_scalar_compressed (p1 p2 : Point) (k : ℕ) :
    ElGamalCiphertext.mul_scalar { c1 := pointCompress p1, c2 := pointCompress p2 } k =
      .ok { c1 := pointCompress (((k : ℕ) : Point) * p1),
            c2 := pointCompress (((k : ℕ) : Point) * p2) } := by
  unfold ElGamalCiphertext.mul_scalar
  rw [pointDecompress_compress, pointDecompress_compress]

/-! Claim theorems. -/

/-- Claim C1: for every keypair in which the public key is derived from the
secret key (public = secret·G), every message m with 0 ≤ m < 10000, and every
32-byte randomness r, `ElGamalSecretKey.decrypt` applied to
`ElGamalPublicKey.encrypt_with_randomness m r` returns `Ok m`. -/
theorem c1_elgamal_roundtrip (kp : ElGamalKeypair) (m r : ℕ)
    (hpk : kp.public.point = pointCompress (kp.secret.as_scalar * G))
    (hm : m < 10000) (hr : r < 2 ^ 256) :
    ∃ ct, kp.public.encrypt_with_randomness m r = .ok ct ∧
      kp.secret.decrypt ct = .ok m := by
  have hy : pointDecompress kp.public.point = some (kp.secret.as_scalar * G) := by
    rw [hpk]
    exact pointDecompress_compress _
  refine ⟨_, encrypt_spec kp.public (kp.secret.as_scalar * G) hy m r, ?_⟩
  apply decrypt_in_range kp.secret _ (from_bytes_mod_order r * G)
    (((m : ℕ) : Point) * G + from_bytes_mod_order r * (kp.secret.as_scalar * G)) m
    (pointDecompress_compress _) (pointDecompress_compress _) (by ring) hm

/-- Witness for C1 at the keypair of secret 1, message 3, randomness 5. -/
theorem c1_elgamal_roundtrip_witness :
    ∃ ct, (ElGamalKeypair.from_secret { scalar := 1 }).public.encrypt_with_randomness 3 5 = .ok ct ∧
      (ElGamalKeypair.from_secret { scalar := 1 }).secret.decrypt ct = .ok 3 :=
  c1_elgamal_roundtrip (ElGamalKeypair.from_secret { scalar := 1 }) 3 5 rfl
    (by omega) (by norm_num)

/-- Claim C2: for every consistent keypair, all messages m1, m2 and
randomness values r1, r2, if m1 + m2 < 10000 then decrypting
`(encrypt_with_randomness m1 r1).add (encrypt_with_randomness m2 r2)`
returns `Ok (m1 + m2)`. -/
theorem c2_add_homomorphic (kp : ElGamalKeypair) (m1 m2 r1 r2 : ℕ)
    (hpk : kp.public.point = pointCompress (kp.secret.as_scalar * G))
    (hsum : m1 + m2 < 10000) (hr1 : r1 < 2 ^ 256) (hr2 : r2 < 2 ^ 256) :
    ∃ ct1 ct2 ct, kp.public.encrypt_with_randomness m1 r1 = .ok ct1 ∧
      kp.public.encrypt_with_randomness m2 r2 = .ok ct2 ∧
      ct1.add ct2 = .ok ct ∧ kp.secret.decrypt ct = .ok (m1 + m2) := by
  have hy : pointDecompress kp.public.point = some (kp.secret.as_scalar * G) := by
    rw [hpk]
    exact pointDecompress_compress _
  refine ⟨_, _, _, encrypt_spec kp.public _ hy m1 r1, encrypt_spec kp.public _ hy m2 r2,
    add_compressed _ _ _ _, ?_⟩
  apply decrypt_in_range kp.secret _
    (from_bytes_mod_order r1 * G + from_bytes_mod_order r2 * G)
    ((((m1 : ℕ) : Point) * G + from_bytes_mod_order r1 * (kp.secret.as_scalar * G)) +
      (((m2 : ℕ) : Point) * G + from_bytes_mod_order r2 * (kp.secret.as_scalar * G)))
    (m1 + m2) (pointDecompress_compress _) (pointDecompress_compress _) ?_ hsum
  push_cast
  ring

/-- Witness for C2 at the keypair of secret 1, messages 10 and 32,
randomness 5 and 7. -/
theorem c2_add_homomorphic_witness :
    ∃ ct1 ct2 ct,
      (ElGamalKeypair.from_secret { scalar := 1 }).public.encrypt_with_randomness 10 5 = .ok ct1 ∧
      (ElGamalKeypair.from_secret { scalar := 1 }).public.encrypt_with_randomness 32 7 = .ok ct2 ∧
      ct1.add ct2 = .ok ct ∧
      (ElGamalKeypair.from_secret { scalar := 1 }).secret.decrypt ct = .ok (10 + 32) :=
  c2_add_homomorphic (ElGamalKeypair.from_secret { scalar := 1 }) 10 32 5 7 rfl
    (by omega) (by norm_num) (by norm_num)

/-- Claim C3: for every consistent keypair, message m, randomness r, and
scalar k, if m * k < 10000 then decrypting
`(encrypt_with_randomness m r).mul_scalar k` returns `Ok (m * k)`. -/
theorem c3_mul_scalar_homomorphic (kp : ElGamalKeypair) (m r k : ℕ)
    (hpk : kp.public.point = pointCompress (kp.secret.as_scalar * G))
    (hmk : m * k < 10000) (hm : m < 2 ^ 64) (hk : k < 2 ^ 64) (hr : r < 2 ^ 256) :
    ∃ ct ct2, kp.public.encrypt_with_randomness m r = .ok ct ∧
      ct.mul_scalar k = .ok ct2 ∧ kp.secret.decrypt ct2 = .ok (m * k) := by
  have hy : pointDecompress kp.public.point = some (kp.secret.as_scalar * G) := by
    rw [hpk]
    exact pointDecompress_compress _
  refine ⟨_, _, encrypt_spec kp.public _ hy m r, mul_scalar_compressed _ _ k, ?_⟩
  apply decrypt_in_range kp.secret _
    (((k : ℕ) : Point) * (from_bytes_mod_order r * G))
    (((k : ℕ) : Point) *
      (((m : ℕ) : Point) * G + from_bytes_mod_order r * (kp.secret.as_scalar * G)))
    (m * k) (pointDecompress_compress _) (pointDecompress_compress _) ?_ hmk
  push_cast
  ring

/-- Witness for C3 at the keypair of secret 1, message 5, randomness 9,
scalar 3. -/
theorem c3_mul_scalar_homomorphic_witness :
    ∃ ct ct2,
      (ElGamalKeypair.from_secret { scalar := 1 }).public.encrypt_with_randomness 5 9 = .ok ct ∧
      ct.mul_scalar 3 = .ok ct2 ∧
      (ElGamalKeypair.from_secret { scalar := 1 }).secret.decrypt ct2 = .ok (5 * 3) :=
  c3_mul_scalar_homomorphic (ElGamalKeypair.from_secret { scalar := 1 }) 5 9 3 rfl
    (by omega) (by norm_num) (by norm_num) (by norm_num)

/-- Claim C4: for every secret key and every well-formed ciphertext whose
encoded plaintext m satisfies 10000 ≤ m (and m < L, the group order, so that
m is the canonical encoded value), `ElGamalSecretKey.decrypt` returns the
error `DecryptionFailed`; an encryption of a message m with 10000 ≤ m < 2^64
is such a ciphertext. -/
theorem c4_decrypt_out_of_bound (sk : ElGamalSecretKey) (ct : ElGamalCiphertext)
    (p1 p2 : Point) (m : ℕ)
    (h1 : pointDecompress ct.c1 = some p1) (h2 : pointDecompress ct.c2 = some p2)
    (hm : p2 - sk.as_scalar * p1 = ((m : ℕ) : Point) * G)
    (hlo : 10000 ≤ m) (hhi : m < L) :
    sk.decrypt ct = .error .DecryptionFailed :=
  decrypt_ge_bound sk ct p1 p2 m h1 h2 hm hlo hhi

/-- Witness for C4: the secret key 0 and the well-formed ciphertext whose
encoded plaintext is 10000. -/
theorem c4_decrypt_out_of_bound_witness :
    ElGamalSecretKey.decrypt { scalar := 0 }
      { c1 := pointCompress 0, c2 := pointCompress ((10000 : ℕ) : Point) } =
      .error .DecryptionFailed :=
  c4_decrypt_out_of_bound { scalar := 0 } _ 0 ((10000 : ℕ) : Point) 10000
    (pointDecompress_compress 0) (pointDecompress_compress _)
    (by simp [ElGamalSecretKey.as_scalar, from_bytes_mod_order, G])
    (by omega) bound_lt_L

theorem pointDecompress_L : pointDecompress L = none := by
  unfold pointDecompress
  rw [if_neg (lt_irrefl L)]

/-- Counterexample to claim C5 as stated: a ciphertext both of whose
components decompress on which `decrypt` does not succeed — with secret key 0
the ciphertext (compress 0, compress of the point of 10000) is well formed,
yet `decrypt` returns `DecryptionFailed` rather than a value. -/
theorem c5_decrypt_not_total_counterexample :
    pointDecompress (pointCompress (0 : Point)) = some (0 : Point) ∧
    pointDecompress (pointCompress ((10000 : ℕ) : Point)) = some ((10000 : ℕ) : Point) ∧
    ElGamalSecretKey.decrypt { scalar := 0 }
      { c1 := pointCompress (0 : Point), c2 := pointCompress ((10000 : ℕ) : Point) } =
      .error .DecryptionFailed :=
  ⟨pointDecompress_compress 0, pointDecompress_compress _,
    decrypt_ge_bound { scalar := 0 } _ (0 : Point) ((10000 : ℕ) : Point) 10000
      (pointDecompress_compress 0) (pointDecompress_compress _)
      (by simp [ElGamalSecretKey.as_scalar, from_bytes_mod_order, G])
      (by omega) bound_lt_L⟩

/-- Claim C5 (amended): a 32-byte string that fails decompression is rejected
by `ElGamalPublicKey.from_bytes` with `InvalidPublicKey`, and `decrypt`,
`add` and `mul_scalar` return `InvalidCiphertext` exactly when a ciphertext
component fails decompression; on inputs whose components all decompress,
`add` and `mul_scalar` succeed, while `decrypt` never returns
`InvalidCiphertext` (it returns a value or `DecryptionFailed`). -/
theorem c5_component_validation :
    (∀ b : ℕ, pointDecompress b = none →
      ElGamalPublicKey.from_bytes b = .error .InvalidPublicKey) ∧
    (∀ (b : ℕ) (p : Point), pointDecompress b = some p →
      ElGamalPublicKey.from_bytes b = .ok { point := b }) ∧
    (∀ (sk : ElGamalSecretKey) (ct : ElGamalCiphertext),
      pointDecompress ct.c1 = none ∨ pointDecompress ct.c2 = none →
      sk.decrypt ct = .error .InvalidCiphertext) ∧
    (∀ (sk : ElGamalSecretKey) (ct : ElGamalCiphertext) (p1 p2 : Point),
      pointDecompress ct.c1 = some p1 → pointDecompress ct.c2 = some p2 →
      (∃ i, sk.decrypt ct = .ok i) ∨ sk.decrypt ct = .error .DecryptionFailed) ∧
    (∀ a b : ElGamalCiphertext,
      pointDecompress a.c1 = none ∨ pointDecompress a.c2 = none ∨
        pointDecompress b.c1 = none ∨ pointDecompress b.c2 = none →
      a.add b = .error .InvalidCiphertext) ∧
    (∀ (a b : ElGamalCiphertext) (pa1 pa2 pb1 pb2 : Point),
      pointDecompress a.c1 = some pa1 → pointDecompress a.c2 = some pa2 →
      pointDecompress b.c1 = some pb1 → pointDecompress b.c2 = some pb2 →
      a.add b = .ok { c1 := pointCompress (pa1 + pb1), c2 := pointCompress (pa2 + pb2) }) ∧
    (∀ (a : ElGamalCiphertext) (k : ℕ),
      pointDecompress a.c1 = none ∨ pointDecompress a.c2 = none →
      a.mul_scalar k = .error .InvalidCiphertext) ∧
    (∀ (a : ElGamalCiphertext) (k : ℕ) (p1 p2 : Point),
      pointDecompress a.c1 = some p1 → pointDecompress a.c2 = some p2 →
      a.mul_scalar k = .ok { c1 := pointCompress (((k : ℕ) : Point) * p1),
                             c2 := pointCompress (((k : ℕ) : Point) * p2) }) := by
  refine ⟨?_, ?_, ?_, ?_, ?_, ?_, ?_, ?_⟩
  · intro b hb
    unfold ElGamalPublicKey.from_bytes
    rw [hb]
  · intro b p hp
    unfold ElGamalPublicKey.from_bytes
    rw [hp]
  · intro sk ct h
    unfold ElGamalSecretKey.decrypt
    rcases h with h | h
    · rw [h]
    · cases hc1 : pointDecompress ct.c1 with
      | none => rfl
      | some p1 => rw [h]
  · intro sk ct p1 p2 h1 h2
    unfold ElGamalSecretKey.decrypt
    rw [h1, h2]
    dsimp only
    cases hdl : dlSearch (p2 - sk.as_scalar * p1) 10000 0 with
    | some i => exact Or.inl ⟨i, rfl⟩
    | none => exact Or.inr rfl
  · intro a b h
    unfold ElGamalCiphertext.add
    rcases h with h | h | h | h
    · rw [h]
    · cases hc : pointDecompress a.c1 with
      | none => rfl
      | some p => rw [h]
    · cases hc : pointDecompress a.c1 with
      | none => rfl
      | some p =>
        cases hc2 : pointDecompress a.c2 with
        | none => rfl
        | some q => rw [h]
    · cases hc : pointDecompress a.c1 with
      | none => rfl
      | some p =>
        cases hc2 : pointDecompress a.c2 with
        | none => rfl
        | some q =>
          cases hc3 : pointDecompress b.c1 with
          | none => rfl
          | some u => rw [h]
  · intro a b pa1 pa2 pb1 pb2 h1 h2 h3 h4
    unfold ElGamalCiphertext.add
    rw [h1, h2, h3, h4]
  · intro a k h
    unfold ElGamalCiphertext.mul_scalar
    rcases h with h | h
    · rw [h]
    · cases hc : pointDecompress a.c1 with
      | none => rfl
      | some p => rw [h]
  · intro a k p1 p2 h1 h2
    unfold ElGamalCiphertext.mul_scalar
    rw [h1, h2]

/-- Witness for C5 (amended), at the invalid byte string `L` (the group
order itself is not below `L`, hence fails decompression) and at the valid
compressed point 1. -/
theorem c5_component_validation_witness :
    ElGamalPublicKey.from_bytes L = .error .InvalidPublicKey ∧
    ElGamalPublicKey.from_bytes (pointCompress (1 : Point)) =
      .ok { point := pointCompress (1 : Point) } ∧
    ElGamalSecretKey.decrypt { scalar := 0 } { c1 := L, c2 := pointCompress (0 : Point) } =
      .error .InvalidCiphertext ∧
    ElGamalCiphertext.add { c1 := L, c2 := pointCompress (0 : Point) }
      { c1 := pointCompress (0 : Point), c2 := pointCompress (0 : Point) } =
      .error .InvalidCiphertext ∧
    ElGamalCiphertext.mul_scalar { c1 := L, c2 := pointCompress (0 : Point) } 2 =
      .error .InvalidCiphertext ∧
    ElGamalCiphertext.add
      { c1 := pointCompress (1 : Point), c2 := pointCompress (1 : Point) }
      { c1 := pointCompress (1 : Point), c2 := pointCompress (1 : Point) } =
      .ok { c1 := pointCompress ((1 : Point) + 1), c2 := pointCompress ((1 : Point) + 1) } ∧
    ElGamalCiphertext.mul_scalar
      { c1 := pointCompress (1 : Point), c2 := pointCompress (1 : Point) } 2 =
      .ok { c1 := pointCompress (((2 : ℕ) : Point) * 1),
            c2 := pointCompress (((2 : ℕ) : Point) * 1) } :=
  ⟨c5_component_validation.1 L pointDecompress_L,
   c5_component_validation.2.1 (pointCompress 1) 1 (pointDecompress_compress 1),
   c5_component_validation.2.2.1 { scalar := 0 } { c1 := L, c2 := pointCompress 0 }
     (Or.inl pointDecompress_L),
   c5_component_validation.2.2.2.2.1 { c1 := L, c2 := pointCompress 0 }
     { c1 := pointCompress 0, c2 := pointCompress 0 } (Or.inl pointDecompress_L),
   c5_component_validation.2.2.2.2.2.2.1 { c1 := L, c2 := pointCompress 0 } 2
     (Or.inl pointDecompress_L),
   c5_component_validation.2.2.2.2.2.1
     { c1 := pointCompress 1, c2 := pointCompress 1 }
     { c1 := pointCompress 1, c2 := pointCompress 1 } 1 1 1 1
     (pointDecompress_compress 1) (pointDecompress_compress 1)
     (pointDecompress_compress 1) (pointDecompress_compress 1),
   c5_component_validation.2.2.2.2.2.2.2
     { c1 := pointCompress 1, c2 := pointCompress 1 } 2 1 1
     (pointDecompress_compress 1) (pointDecompress_compress 1)⟩

/-- Claim C8: the mapping i ↦ i·G is injective on the decryption search
range [0, 10000), so at most one index in the linear search of `decrypt` can
match, and a returned match is the unique preimage within the bound. -/
theorem c8_dlog_injective :
    (∀ i j : ℕ, i < 10000 → j < 10000 → i ≠ j →
      ((i : ℕ) : Point) * G ≠ ((j : ℕ) : Point) * G) ∧
    (∀ (t : Point) (k : ℕ), dlSearch t 10000 0 = some k →
      k < 10000 ∧ ((k : ℕ) : Point) * G = t ∧
        ∀ j : ℕ, j < 10000 → ((j : ℕ) : Point) * G = t → j = k) := by
  have hinj : ∀ i j : ℕ, i < 10000 → j < 10000 → i ≠ j →
      ((i : ℕ) : Point) * G ≠ ((j : ℕ) : Point) * G := by
    intro i j hi hj hne hc
    simp only [G, mul_one] at hc
    exact hne (natCast_point_inj (lt_trans hi bound_lt_L) (lt_trans hj bound_lt_L) hc)
  refine ⟨hinj, ?_⟩
  intro t k hk
  obtain ⟨_, hk2, hk3⟩ := dlSearch_sound t 10000 0 k hk
  refine ⟨by omega, hk3, ?_⟩
  intro j hj hjt
  by_contra hne
  exact hinj j k hj (by omega) hne (hjt.trans hk3.symm)

/-- Witness for C8 at the indices 1 and 2, and at the target point of 0
(found by the search at index 0). -/
theorem c8_dlog_injective_witness :
    (((1 : ℕ) : Point) * G ≠ ((2 : ℕ) : Point) * G) ∧
    (0 < 10000 ∧ ((0 : ℕ) : Point) * G = ((0 : ℕ) : Point) ∧
      ∀ j : ℕ, j < 10000 → ((j : ℕ) : Point) * G = ((0 : ℕ) : Point) → j = 0) :=
  ⟨c8_dlog_injective.1 1 2 (by omega) (by omega) (by omega),
   c8_dlog_injective.2 ((0 : ℕ) : Point) 0
     (dlSearch_finds 0 L_pos 10000 0 (Nat.le_refl 0) (by omega))⟩

theorem to_le_bytes_inj {n m : ℕ} (hn : n < 2 ^ 64) (hm : m < 2 ^ 64)
    (h : to_le_bytes n = to_le_bytes m) : n = m := by
  unfold to_le_bytes at h
  simp only [List.cons.injEq, and_true] at h
  obtain ⟨h0, h1, h2, h3, h4, h5, h6, h7⟩ := h
  have hn64 : n < 18446744073709551616 := by omega
  have hm64 : m < 18446744073709551616 := by omega
  omega

theorem to_le_bytes_length (n : ℕ) : (to_le_bytes n).length = 8 := rfl

/-- Claim C6: `compute_nullifier voter_secret election_id nonce` is a pure
deterministic function equal to Keccak-256 of
voter_secret ‖ election_id ‖ nonce with the nonce encoded little-endian;
identical inputs yield the identical digest, changing any one input changes
the digest (in the ideal-hash model), and `compute_nullifier_with_pubkey`
coincides with `compute_nullifier`. -/
theorem c6_nullifier (s e t f : List ℕ) (n m : ℕ)
    (hs : s.length = 32) (he : e.length = 32)
    (ht : t.length = 32) (hf : f.length = 32)
    (hn : n < 2 ^ 64) (hm : m < 2 ^ 64) :
    compute_nullifier s e n = keccak256 (s ++ e ++ to_le_bytes n) ∧
    (s = t → e = f → n = m → compute_nullifier s e n = compute_nullifier t f m) ∧
    (¬(s = t ∧ e = f ∧ n = m) → compute_nullifier s e n ≠ compute_nullifier t f m) ∧
    compute_nullifier_with_pubkey s e n = compute_nullifier s e n := by
  refine ⟨rfl, ?_, ?_, rfl⟩
  · intro h1 h2 h3
    rw [h1, h2, h3]
  · intro hne hc
    unfold compute_nullifier keccak256 at hc
    rw [List.append_assoc, List.append_assoc] at hc
    obtain ⟨hst, hc2⟩ := List.append_inj hc (hs.trans ht.symm)
    obtain ⟨hef, hc3⟩ := List.append_inj hc2 (he.trans hf.symm)
    exact hne ⟨hst, hef, to_le_bytes_inj hn hm hc3⟩

/-- Witness for C6 at voter secrets of all-1 and all-2 bytes, election ids of
all-3 bytes, nonces 0 and 0. -/
theorem c6_nullifier_witness :
    compute_nullifier (List.replicate 32 1) (List.replicate 32 3) 0 =
      keccak256 (List.replicate 32 1 ++ List.replicate 32 3 ++ to_le_bytes 0) ∧
    (List.replicate 32 1 = List.replicate 32 2 → List.replicate 32 3 = List.replicate 32 3 →
      0 = 0 → compute_nullifier (List.replicate 32 1) (List.replicate 32 3) 0 =
        compute_nullifier (List.replicate 32 2) (List.replicate 32 3) 0) ∧
    (¬(List.replicate 32 1 = List.replicate 32 2 ∧ List.replicate 32 3 = List.replicate 32 3 ∧
        (0 : ℕ) = 0) →
      compute_nullifier (List.replicate 32 1) (List.replicate 32 3) 0 ≠
        compute_nullifier (List.replicate 32 2) (List.replicate 32 3) 0) ∧
    compute_nullifier_with_pubkey (List.replicate 32 1) (List.replicate 32 3) 0 =
      compute_nullifier (List.replicate 32 1) (List.replicate 32 3) 0 :=
  c6_nullifier (List.replicate 32 1) (List.replicate 32 3)
    (List.replicate 32 2) (List.replicate 32 3) 0 0
    (List.length_replicate 32 1) (List.length_replicate 32 3)
    (List.length_replicate 32 2) (List.length_replicate 32 3)
    (by norm_num) (by norm_num)

/-- Claim C7: `commit_vote` is deterministic, and `verify_commitment c v b`
accepts exactly when `c = commit_vote v b`; in the ideal-hash model the
commitment determines the committed pair, so verification accepts only the
pair that produced the commitment. -/
theorem c7_commitment (c : List ℕ) (v : ℕ) (b : List ℕ) (w : ℕ) (d : List ℕ) :
    (v = w → b = d → commit_vote v b = commit_vote w d) ∧
    (verify_commitment c v b = true ↔ c = commit_vote v b) ∧
    (commit_vote v b = commit_vote w d → v = w ∧ b = d) := by
  refine ⟨?_, ?_, ?_⟩
  · intro hv hb
    rw [hv, hb]
  · unfold verify_commitment
    rw [beq_iff_eq]
    exact eq_comm
  · intro h
    unfold commit_vote keccak256 at h
    simp only [List.cons_append, List.nil_append, List.cons.injEq] at h
    exact h

/-- Witness for C7 at vote 1, blinding of all-42 bytes, against vote 0 with
the same blinding. -/
theorem c7_commitment_witness :
    ((1 : ℕ) = 0 → List.replicate 32 42 = List.replicate 32 42 →
      commit_vote 1 (List.replicate 32 42) = commit_vote 0 (List.replicate 32 42)) ∧
    (verify_commitment (commit_vote 1 (List.replicate 32 42)) 1 (List.replicate 32 42) = true ↔
      commit_vote 1 (List.replicate 32 42) = commit_vote 1 (List.replicate 32 42)) ∧
    (commit_vote 1 (List.replicate 32 42) = commit_vote 0 (List.replicate 32 42) →
      (1 : ℕ) = 0 ∧ List.replicate 32 42 = List.replicate 32 42) :=
  c7_commitment (commit_vote 1 (List.replicate 32 42)) 1 (List.replicate 32 42) 0
    (List.replicate 32 42)

theorem contains_iff_mem (s : NullifierSet) (n : List ℕ) :
    s.contains n = true ↔ n ∈ s.nullifiers := by
  unfold NullifierSet.contains
  simp only [List.any_eq_true, beq_iff_eq, exists_eq_right]

/-- Claim C9: every `NullifierSet` state reachable from an empty set by
`insert` calls has pairwise-distinct nullifiers; `insert n` returns
`NullifierAlreadyUsed` (leaving the account unchanged, as the model returns
no new state) exactly when `contains n` holds, and otherwise appends `n`, so
`contains n` holds afterwards. -/
theorem c9_nullifier_set (s : NullifierSet) (h : s.Reachable) :
    s.nullifiers.Nodup ∧
    ∀ n : List ℕ,
      (s.insert n = .error .NullifierAlreadyUsed ↔ s.contains n = true) ∧
      (s.contains n = false →
        ∃ s', s.insert n = .ok s' ∧ s'.contains n = true ∧
          s'.nullifiers = s.nullifiers ++ [n]) := by
  constructor
  · induction h with
    | empty bump election => exact List.nodup_nil
    | step sc s' n hs hins ih =>
      unfold NullifierSet.insert at hins
      by_cases hc : sc.contains n = true
      · rw [if_pos hc] at hins
        cases hins
      · rw [if_neg hc] at hins
        obtain rfl := Except.ok.inj hins
        rw [List.nodup_append]
        refine ⟨ih, List.nodup_singleton n, ?_⟩
        intro a ha hmem
        obtain rfl := List.mem_singleton.mp hmem
        exact hc ((contains_iff_mem sc a).mpr ha)
  · intro n
    constructor
    · unfold NullifierSet.insert
      by_cases hc : s.contains n = true
      · rw [if_pos hc]
        simp [hc]
      · rw [if_neg hc]
        simp only [Bool.not_eq_true] at hc
        simp [hc]
    · intro hc
      refine ⟨{ s with nullifiers := s.nullifiers ++ [n] }, ?_, ?_, rfl⟩
      · unfold NullifierSet.insert
        rw [if_neg (by rw [hc]; exact Bool.false_ne_true)]
      · rw [contains_iff_mem]
        exact List.mem_append_right _ (List.mem_singleton.mpr rfl)

/-- Witness for C9 at the empty nullifier set of bump 0 and election 0. -/
theorem c9_nullifier_set_witness :
    ({ bump := 0, election := 0, nullifiers := [] } : NullifierSet).nullifiers.Nodup ∧
    ∀ n : List ℕ,
      (({ bump := 0, election := 0, nullifiers := [] } : NullifierSet).insert n =
          .error .NullifierAlreadyUsed ↔
        ({ bump := 0, election := 0, nullifiers := [] } : NullifierSet).contains n = true) ∧
      (({ bump := 0, election := 0, nullifiers := [] } : NullifierSet).contains n = false →
        ∃ s', ({ bump := 0, election := 0, nullifiers := [] } : NullifierSet).insert n = .ok s' ∧
          s'.contains n = true ∧ s'.nullifiers = [] ++ [n]) :=
  c9_nullifier_set { bump := 0, election := 0, nullifiers := [] }
    (NullifierSet.Reachable.empty 0 0)

/-- Claim C10: `ElGamalSecretKey.from_bytes` accepts every 32-byte value
without validation; no operation of the crypto core ever returns
`InvalidSecretKey`; and secret-key operations depend on the stored bytes only
through reduction mod the group order: congruent secret-key bytes give
identical decryption results and identical derived public keys. -/
theorem c10_secret_key_mod_order (x y : ℕ) (hcong : x ≡ y [MOD L]) :
    (∀ b : ℕ, (ElGamalSecretKey.from_bytes b).scalar = b) ∧
    (∀ (sk : ElGamalSecretKey) (ct : ElGamalCiphertext),
      sk.decrypt ct ≠ .error .InvalidSecretKey) ∧
    (∀ (pk : ElGamalPublicKey) (m r : ℕ),
      pk.encrypt_with_randomness m r ≠ .error .InvalidSecretKey) ∧
    (∀ a b : ElGamalCiphertext, a.add b ≠ .error .InvalidSecretKey) ∧
    (∀ (a : ElGamalCiphertext) (k : ℕ), a.mul_scalar k ≠ .error .InvalidSecretKey) ∧
    (∀ b : ℕ, ElGamalPublicKey.from_bytes b ≠ .error .InvalidSecretKey) ∧
    (∀ ct : ElGamalCiphertext,
      ElGamalSecretKey.decrypt { scalar := x } ct =
        ElGamalSecretKey.decrypt { scalar := y } ct) ∧
    (ElGamalKeypair.from_secret { scalar := x }).public =
      (ElGamalKeypair.from_secret { scalar := y }).public := by
  have hsc : ((x : ℕ) : Point) = ((y : ℕ) : Point) :=
    (ZMod.natCast_eq_natCast_iff x y L).mpr hcong
  refine ⟨fun b => rfl, ?_, ?_, ?_, ?_, ?_, ?_, ?_⟩
  · intro sk ct
    unfold ElGamalSecretKey.decrypt
    cases pointDecompress ct.c1 with
    | none => simp
    | some p1 =>
      cases pointDecompress ct.c2 with
      | none => simp
      | some p2 =>
        dsimp only
        cases dlSearch (p2 - sk.as_scalar * p1) 10000 0 with
        | some i => simp
        | none => simp
  · intro pk m r
    unfold ElGamalPublicKey.encrypt_with_randomness ElGamalPublicKey.as_point
    cases pointDecompress pk.point with
    | none => simp
    | some p => simp
  · intro a b
    unfold ElGamalCiphertext.add
    cases pointDecompress a.c1 with
    | none => simp
    | some p1 =>
      cases pointDecompress a.c2 with
      | none => simp
      | some p2 =>
        cases pointDecompress b.c1 with
        | none => simp
        | some q1 =>
          cases pointDecompress b.c2 with
          | none => simp
          | some q2 => simp
  · intro a k
    unfold ElGamalCiphertext.mul_scalar
    cases pointDecompress a.c1 with
    | none => simp
    | some p1 =>
      cases pointDecompress a.c2 with
      | none => simp
      | some p2 => simp
  · intro b
    unfold ElGamalPublicKey.from_bytes
    cases pointDecompress b with
    | none => simp
    | some p => simp
  · intro ct
    unfold ElGamalSecretKey.decrypt ElGamalSecretKey.as_scalar from_bytes_mod_order
    dsimp only
    rw [hsc]
  · unfold ElGamalKeypair.from_secret ElGamalSecretKey.as_scalar from_bytes_mod_order
    dsimp only
    rw [hsc]

/-- Witness for C10 at the congruent secret-key bytes 1 and 1 + L. -/
theorem c10_secret_key_mod_order_witness :
    (∀ b : ℕ, (ElGamalSecretKey.from_bytes b).scalar = b) ∧
    (∀ (sk : ElGamalSecretKey) (ct : ElGamalCiphertext),
      sk.decrypt ct ≠ .error .InvalidSecretKey) ∧
    (∀ (pk : ElGamalPublicKey) (m r : ℕ),
      pk.encrypt_with_randomness m r ≠ .error .InvalidSecretKey) ∧
    (∀ a b : ElGamalCiphertext, a.add b ≠ .error .InvalidSecretKey) ∧
    (∀ (a : ElGamalCiphertext) (k : ℕ), a.mul_scalar k ≠ .error .InvalidSecretKey) ∧
    (∀ b : ℕ, ElGamalPublicKey.from_bytes b ≠ .error .InvalidSecretKey) ∧
    (∀ ct : ElGamalCiphertext,
      ElGamalSecretKey.decrypt { scalar := 1 } ct =
        ElGamalSecretKey.decrypt { scalar := 1 + L } ct) ∧
    (ElGamalKeypair.from_secret { scalar := 1 }).public =
      (ElGamalKeypair.from_secret { scalar := 1 + L }).public :=
  c10_secret_key_mod_order 1 (1 + L)
    ((Nat.ModEq.refl 1).add ((Nat.modEq_zero_iff_dvd).mpr (dvd_refl L)).symm)

end PrivateVotes
